import Mathlib

/-!
Verification of the placement evaluator of the SelfTetris sketch.

The board is 7 cells wide and 10 cells tall.  A cell of the C program holds a
CRGB color where CRGB::Black means empty; only occupancy is ever inspected by
the evaluator, so a board is embedded as an occupancy predicate indexed by
(row, column) in `Int` (the C code uses `int` coordinates that may go
negative before the bounds check).  All functions below are direct
translations of the corresponding functions of `SelfTetris.ino`.
-/

def Board : Type := Int → Int → Bool

/-- The active-piece record of the sketch: type (0 = I, 1 = O, 2 = T),
rotation index 0–3, and the top-left anchor coordinates on the board. -/
structure Piece where
  type : Fin 3
  rotation : Fin 4
  x : Int
  y : Int
deriving DecidableEq

/-- The `tetrominoes` table: per type and rotation, 4 blocks given as
(x-offset, y-offset) pairs, exactly as in the source. -/
def tetrominoes : Fin 3 → Fin 4 → Fin 4 → Int × Int :=
  ![ -- I piece
    ![![(0,0), (1,0), (2,0), (3,0)],
      ![(0,0), (0,1), (0,2), (0,3)],
      ![(0,0), (1,0), (2,0), (3,0)],
      ![(0,0), (0,1), (0,2), (0,3)]],
    -- O piece
    ![![(0,0), (1,0), (0,1), (1,1)],
      ![(0,0), (1,0), (0,1), (1,1)],
      ![(0,0), (1,0), (0,1), (1,1)],
      ![(0,0), (1,0), (0,1), (1,1)]],
    -- T piece
    ![![(0,0), (1,0), (2,0), (1,1)],
      ![(1,0), (0,1), (1,1), (1,2)],
      ![(1,0), (0,1), (1,1), (2,1)],
      ![(0,1), (1,0), (1,1), (1,2)]]]

/-- Function `canPlace` from the source: every one of the 4 blocks must be inside the
7×10 board and land on an empty cell. -/
def canPlace (b : Board) (p : Piece) (newX newY : Int) (newRotation : Fin 4) : Bool :=
  (List.finRange 4).all fun i =>
    let blockX := newX + (tetrominoes p.type newRotation i).1
    let blockY := newY + (tetrominoes p.type newRotation i).2
    if blockX < 0 ∨ 7 ≤ blockX ∨ blockY < 0 ∨ 10 ≤ blockY then false
    else !(b blockY blockX)

/-- Setting a single cell of a board to occupied. -/
def updateCell (tb : Board) (r c : Int) : Board :=
  fun rr cc => if rr = r ∧ cc = c then true else tb rr cc

/-- The locking loop at the start of `simulateCandidateScore`: write each of
the candidate's 4 blocks into the copy, guarding each write by the bounds
check the source performs. -/
def simulateLock (b : Board) (t : Fin 3) (testRot : Fin 4) (testX landingY : Int) : Board :=
  (List.finRange 4).foldl (fun tb i =>
    let blockX := testX + (tetrominoes t testRot i).1
    let blockY := landingY + (tetrominoes t testRot i).2
    if 0 ≤ blockY ∧ blockY < 10 ∧ 0 ≤ blockX ∧ blockX < 7 then
      updateCell tb blockY blockX
    else tb) b

/-- One step of the per-column hole scan of `simulateCandidateScore`:
state is (foundBlock, holes). -/
def holeScanStep (tb : Board) (col : Int) (st : Bool × Nat) (row : Nat) : Bool × Nat :=
  if tb (row : Int) col then (true, st.2)
  else if st.1 then (st.1, st.2 + 1)
  else st

/-- The hole-counting loop of `simulateCandidateScore`: scan every column
top to bottom, incrementing on an empty cell after an occupied one. -/
def countHoles (tb : Board) : Nat :=
  (List.range 7).foldl (fun holes (col : Nat) =>
    ((List.range 10).foldl (holeScanStep tb (col : Int)) (false, holes)).2) 0

/-- A row is full when all 7 of its cells are occupied. -/
def fullRow (tb : Board) (r : Int) : Bool :=
  (List.range 7).all fun (c : Nat) => tb r (c : Int)

/-- The full-line counting loop of `simulateCandidateScore`. -/
def countLines (tb : Board) : Nat :=
  (List.range 10).countP fun (r : Nat) => fullRow tb (r : Int)

/-- The per-column height of `simulateCandidateScore`: 10 − (topmost occupied
row), or 0 when the column is empty (the loop breaks at the first occupied
cell from the top). -/
def colHeight (tb : Board) (col : Int) : Nat :=
  match (List.range 10).find? (fun (row : Nat) => tb (row : Int) col) with
  | some row => 10 - row
  | none => 0

/-- The maximum-column-height loop of `simulateCandidateScore`. -/
def maxHeight (tb : Board) : Nat :=
  (List.range 7).foldl (fun m (col : Nat) =>
    let h := colHeight tb (col : Int)
    if m < h then h else m) 0

def HOLE_PENALTY : Int := 3
def LINE_CLEAR_BONUS : Int := 10
def MAX_HEIGHT_PENALTY : Int := 1

/-- Function `simulateCandidateScore` from the source: lock the candidate into a copy
of the board, then score it. -/
def simulateCandidateScore (b : Board) (candidate : Piece) (testX landingY : Int)
    (testRot : Fin 4) : Int :=
  let temp := simulateLock b candidate.type testRot testX landingY
  landingY - HOLE_PENALTY * (countHoles temp : Int)
    + LINE_CLEAR_BONUS * (countLines temp : Int)
    - MAX_HEIGHT_PENALTY * (maxHeight temp : Int)

/-- The drop loop of `findBestPlacement`: from `landingY`, keep descending
while the row below is legal.  The C loop needs no fuel; here the fuel
argument bounds the iteration count and 10 (the board height) is shown to
be enough. -/
def simulateDrop (b : Board) (p : Piece) (x : Int) (rot : Fin 4) : Nat → Int → Int
  | 0, landingY => landingY
  | fuel + 1, landingY =>
    if canPlace b p x (landingY + 1) rot then simulateDrop b p x rot fuel (landingY + 1)
    else landingY

/-- The `maxOffset` computation of `findBestPlacement`: the greatest
x-offset among the 4 blocks of a rotation. -/
def maxOffset (t : Fin 3) (rot : Fin 4) : Int :=
  (List.finRange 4).foldl (fun m i =>
    let xo := (tetrominoes t rot i).1
    if m < xo then xo else m) 0

/-- Number of starting columns tried for a rotation: valid x positions are
0 to `7 - maxOffset - 1` inclusive. -/
def maxXN (t : Fin 3) (rot : Fin 4) : Nat := (7 - maxOffset t rot).toNat

/-- The score of an enumerated candidate (column, rotation): drop from row 0
and score the landing, exactly the body of `findBestPlacement`'s inner loop. -/
def candidateScoreAt (b : Board) (p : Piece) (x : Int) (rot : Fin 4) : Int :=
  simulateCandidateScore b p x (simulateDrop b p x rot 10 0) rot

/-- Function `findBestPlacement` from the source: iterate rotations 0..3, then
columns 0..`maxX`−1, skip candidates illegal at row 0, simulate drop and
score, and keep the strictly best; the chosen (x, rotation) start as the
current piece's position. -/
def findBestPlacement (b : Board) (p : Piece) : Int × Int :=
  let r := (List.finRange 4).foldl (fun s rot =>
    (List.range (maxXN p.type rot)).foldl (fun s (x : Nat) =>
      if canPlace b p (x : Int) 0 rot then
        let landingY := simulateDrop b p (x : Int) rot 10 0
        let score := simulateCandidateScore b p (x : Int) landingY rot
        if s.1 < score then (score, ((x : Int), rot)) else s
      else s) s) ((-10000 : Int), (p.x, p.rotation))
  (r.2.1, ((r.2.2 : Nat) : Int))

/-- The deterministic branch of `performStrategicMove` given the target
(bestX, bestRot): rotate toward the target rotation (with the one-column
wall-kick fallbacks), otherwise step one column toward the target column. -/
def moveTowardTarget (b : Board) (p : Piece) (bestX bestRot : Int) : Piece :=
  if ((p.rotation : Nat) : Int) ≠ bestRot then
    let newRot : Fin 4 := p.rotation + 1
    if canPlace b p p.x p.y newRot then { p with rotation := newRot }
    else if canPlace b p (p.x - 1) p.y newRot then { p with x := p.x - 1, rotation := newRot }
    else if canPlace b p (p.x + 1) p.y newRot then { p with x := p.x + 1, rotation := newRot }
    else p
  else
    if p.x < bestX then
      if canPlace b p (p.x + 1) p.y p.rotation then { p with x := p.x + 1 } else p
    else if bestX < p.x then
      if canPlace b p (p.x - 1) p.y p.rotation then { p with x := p.x - 1 } else p
    else p

/-- The deterministic (non-random-error) path of `performStrategicMove`:
compute the best placement, then take one incremental step toward it. -/
def performStrategicMove (b : Board) (p : Piece) : Piece :=
  let best := findBestPlacement b p
  moveTowardTarget b p best.1 best.2

/-- Spawn column of `spawnPiece` per piece type (width 4, 2, 3). -/
def spawnX (t : Fin 3) : Int :=
  if t = 0 then (7 - 4) / 2
  else if t = 1 then (7 - 2) / 2
  else (7 - 3) / 2

/-- Function `spawnPiece` from the source, with the random type drawn modelled as a
parameter; the Bool is the gameOver flag it raises when the fresh piece
cannot be placed. -/
def spawnPiece (b : Board) (t : Fin 3) : Piece × Bool :=
  let p : Piece := { type := t, rotation := 0, x := spawnX t, y := 0 }
  (p, !canPlace b p p.x p.y p.rotation)

/-- The inner shifting loop of `clearLines` when row `r` is full: for row
from `r` down to 1, copy row−1 into row. -/
def shiftRowsDown (tb : Board) (r : Nat) : Board :=
  ((List.range r).map (fun k => r - k)).foldl (fun tb2 row =>
    fun rr cc => if rr = ((row : Nat) : Int) then tb2 (((row : Nat) : Int) - 1) cc else tb2 rr cc) tb

/-- Emptying the top row after a shift, as `clearLines` does. -/
def clearRowZero (tb : Board) : Board :=
  fun rr cc => if rr = 0 then false else tb rr cc

/-- Function `clearLines` from the source: one top-to-bottom pass; every full row is
cleared by shifting everything above it down one row and emptying row 0. -/
def clearLines (b : Board) : Board :=
  (List.range 10).foldl (fun tb (r : Nat) =>
    if fullRow tb (r : Int) then clearRowZero (shiftRowsDown tb r) else tb) b

/-- Global state of the sketch relevant to the evaluator: the live board,
the active piece, and the gameOver flag. -/
structure GameState where
  board : Board
  piece : Piece
  gameOver : Bool

/-- Function `findBestPlacement` as the C function acts on the globals: it reads the
board and piece and writes only its two out-parameters, so the state
component is returned untouched. -/
def findBestPlacementS (s : GameState) : (Int × Int) × GameState :=
  (findBestPlacement s.board s.piece, s)

/-- Function `simulateCandidateScore` as it acts on the globals: all its writes go to
the local `temp` copy, so the state is returned untouched. -/
def simulateCandidateScoreS (s : GameState) (testX landingY : Int) (testRot : Fin 4) :
    Int × GameState :=
  (simulateCandidateScore s.board s.piece testX landingY testRot, s)

/-! ## Basic facts about the offset tables and `canPlace` -/

lemma blockCond_iff (X Y : Int) (v : Bool) :
    ((if X < 0 ∨ 7 ≤ X ∨ Y < 0 ∨ 10 ≤ Y then false else !v) = true) ↔
      (0 ≤ X ∧ X < 7 ∧ 0 ≤ Y ∧ Y < 10 ∧ v = false) := by
  by_cases h : X < 0 ∨ 7 ≤ X ∨ Y < 0 ∨ 10 ≤ Y
  · simp only [if_pos h, Bool.false_eq_true, false_iff]
    rintro ⟨h1, h2, h3, h4, -⟩
    omega
  · push_neg at h
    obtain ⟨h1, h2, h3, h4⟩ := h
    simp only [if_neg (by omega : ¬(X < 0 ∨ 7 ≤ X ∨ Y < 0 ∨ 10 ≤ Y))]
    simp [Bool.not_eq_true', h1, h2, h3, h4]

lemma canPlace_eq_true_iff (b : Board) (p : Piece) (nx ny : Int) (rot : Fin 4) :
    canPlace b p nx ny rot = true ↔ ∀ i : Fin 4,
      0 ≤ nx + (tetrominoes p.type rot i).1 ∧ nx + (tetrominoes p.type rot i).1 < 7 ∧
      0 ≤ ny + (tetrominoes p.type rot i).2 ∧ ny + (tetrominoes p.type rot i).2 < 10 ∧
      b (ny + (tetrominoes p.type rot i).2) (nx + (tetrominoes p.type rot i).1) = false := by
  simp only [canPlace, List.all_eq_true, List.mem_finRange]
  exact ⟨fun h i => (blockCond_iff _ _ _).mp (h i trivial),
    fun h i _ => (blockCond_iff _ _ _).mpr (h i)⟩

lemma tet_off_nonneg :
    ∀ (t : Fin 3) (rot : Fin 4) (i : Fin 4),
      0 ≤ (tetrominoes t rot i).1 ∧ 0 ≤ (tetrominoes t rot i).2 := by decide

lemma tet_off_le_maxOffset :
    ∀ (t : Fin 3) (rot : Fin 4) (i : Fin 4), (tetrominoes t rot i).1 ≤ maxOffset t rot := by
  decide

lemma tet_exists_off_eq_maxOffset :
    ∀ (t : Fin 3) (rot : Fin 4), ∃ i : Fin 4, (tetrominoes t rot i).1 = maxOffset t rot := by
  decide

lemma tet_exists_xoff_zero :
    ∀ (t : Fin 3) (rot : Fin 4), ∃ i : Fin 4, (tetrominoes t rot i).1 = 0 := by decide

lemma tet_exists_yoff_zero :
    ∀ (t : Fin 3) (rot : Fin 4), ∃ i : Fin 4, (tetrominoes t rot i).2 = 0 := by decide

lemma maxXN_cast (t : Fin 3) (rot : Fin 4) : ((maxXN t rot : Nat) : Int) = 7 - maxOffset t rot := by
  revert t rot; decide

lemma canPlace_x_bounds {b : Board} {p : Piece} {x y : Int} {rot : Fin 4}
    (h : canPlace b p x y rot = true) : 0 ≤ x ∧ x < 7 - maxOffset p.type rot := by
  rw [canPlace_eq_true_iff] at h
  obtain ⟨i0, hi0⟩ := tet_exists_xoff_zero p.type rot
  obtain ⟨i1, hi1⟩ := tet_exists_off_eq_maxOffset p.type rot
  have h0 := (h i0).1
  have h1 := (h i1).2.1
  rw [hi0] at h0
  rw [hi1] at h1
  omega

lemma canPlace_y_bounds {b : Board} {p : Piece} {x y : Int} {rot : Fin 4}
    (h : canPlace b p x y rot = true) : 0 ≤ y ∧ y < 10 := by
  rw [canPlace_eq_true_iff] at h
  obtain ⟨i0, hi0⟩ := tet_exists_yoff_zero p.type rot
  have h0 := (h i0).2.2
  rw [hi0] at h0
  omega

/-! ## Drop-simulation lemmas -/

lemma simulateDrop_ge (b : Board) (p : Piece) (x : Int) (rot : Fin 4) :
    ∀ (fuel : Nat) (y : Int), y ≤ simulateDrop b p x rot fuel y := by
  intro fuel
  induction fuel with
  | zero => intro y; exact le_refl y
  | succ f ih =>
    intro y
    simp only [simulateDrop]
    split
    · exact le_trans (by omega) (ih (y + 1))
    · exact le_refl y

lemma simulateDrop_canPlace (b : Board) (p : Piece) (x : Int) (rot : Fin 4) :
    ∀ (fuel : Nat) (y : Int), canPlace b p x y rot = true →
      canPlace b p x (simulateDrop b p x rot fuel y) rot = true := by
  intro fuel
  induction fuel with
  | zero => intro y h; exact h
  | succ f ih =>
    intro y h
    simp only [simulateDrop]
    split
    · exact ih (y + 1) (by assumption)
    · exact h

lemma simulateDrop_chain (b : Board) (p : Piece) (x : Int) (rot : Fin 4) :
    ∀ (fuel : Nat) (y : Int), canPlace b p x y rot = true →
      ∀ z : Int, y ≤ z → z ≤ simulateDrop b p x rot fuel y → canPlace b p x z rot = true := by
  intro fuel
  induction fuel with
  | zero =>
    intro y h z h1 h2
    simp only [simulateDrop] at h2
    have : z = y := le_antisymm h2 h1
    rwa [this]
  | succ f ih =>
    intro y h z h1 h2
    simp only [simulateDrop] at h2
    by_cases hc : canPlace b p x (y + 1) rot = true
    · rw [if_pos hc] at h2
      rcases (by omega : z = y ∨ y + 1 ≤ z) with hz | hz
      · rwa [hz]
      · exact ih (y + 1) hc z hz h2
    · rw [if_neg hc] at h2
      have : z = y := le_antisymm h2 h1
      rwa [this]

lemma simulateDrop_stop (b : Board) (p : Piece) (x : Int) (rot : Fin 4) :
    ∀ (fuel : Nat) (y : Int), canPlace b p x y rot = true → 10 ≤ y + fuel →
      canPlace b p x (simulateDrop b p x rot fuel y + 1) rot = false := by
  intro fuel
  induction fuel with
  | zero =>
    intro y h hy
    have := (canPlace_y_bounds h).2
    omega
  | succ f ih =>
    intro y h hy
    simp only [simulateDrop]
    by_cases hc : canPlace b p x (y + 1) rot = true
    · rw [if_pos hc]
      exact ih (y + 1) hc (by omega)
    · rw [if_neg hc]
      exact Bool.not_eq_true _ ▸ Bool.of_not_eq_true hc

lemma simulateDrop_fuel_succ (b : Board) (p : Piece) (x : Int) (rot : Fin 4) :
    ∀ (fuel : Nat) (y : Int), canPlace b p x y rot = true → 10 ≤ y + fuel →
      simulateDrop b p x rot (fuel + 1) y = simulateDrop b p x rot fuel y := by
  intro fuel
  induction fuel with
  | zero =>
    intro y h hy
    have := (canPlace_y_bounds h).2
    omega
  | succ f ih =>
    intro y h hy
    show (if canPlace b p x (y + 1) rot = true then simulateDrop b p x rot (f + 1) (y + 1) else y)
      = (if canPlace b p x (y + 1) rot = true then simulateDrop b p x rot f (y + 1) else y)
    by_cases hc : canPlace b p x (y + 1) rot = true
    · rw [if_pos hc, if_pos hc, ih (y + 1) hc (by omega)]
    · rw [if_neg hc, if_neg hc]

lemma simulateDrop_fuel_ge (b : Board) (p : Piece) (x : Int) (rot : Fin 4)
    (h : canPlace b p x 0 rot = true) :
    ∀ k : Nat, simulateDrop b p x rot (10 + k) 0 = simulateDrop b p x rot 10 0 := by
  intro k
  induction k with
  | zero => rfl
  | succ n ih =>
    have : 10 + (n + 1) = (10 + n) + 1 := by omega
    rw [this, simulateDrop_fuel_succ b p x rot (10 + n) 0 h (by omega), ih]

/-! ## Declarative (spec-worded) scoring quantities -/

/-- Spec wording for a hole: an empty cell with at least one occupied cell
above it in the same column. -/
def isHole (tb : Board) (col r : Nat) : Bool :=
  !tb (r : Int) (col : Int) && (List.range r).any fun q => tb (q : Int) (col : Int)

lemma isHole_iff (tb : Board) (col r : Nat) :
    isHole tb col r = true ↔
      tb (r : Int) (col : Int) = false ∧ ∃ q : Nat, q < r ∧ tb (q : Int) (col : Int) = true := by
  simp [isHole, List.any_eq_true, List.mem_range, Bool.not_eq_true', and_assoc]

/-- Spec wording for the hole count: summed over all columns, the number of
empty cells having an occupied cell above them in the same column. -/
def specHoles (tb : Board) : Nat :=
  ((List.range 7).map fun col => (List.range 10).countP (isHole tb col)).sum

/-- Spec wording for cleared lines: the number of rows in which every column
is occupied. -/
def specLines (tb : Board) : Nat :=
  (List.range 10).countP fun (r : Nat) => decide (∀ c : Nat, c < 7 → tb (r : Int) (c : Int) = true)

/-- Spec wording for the locked snapshot: the board with the candidate's 4
blocks added (no bounds guard; the spec's candidate blocks live on the
board). -/
def specLocked (b : Board) (t : Fin 3) (rot : Fin 4) (x y : Int) : Board :=
  fun r c => b r c ||
    decide (∃ i : Fin 4, r = y + (tetrominoes t rot i).2 ∧ c = x + (tetrominoes t rot i).1)

/-! ## The hole scan computes the declarative hole count -/

lemma holeScanStep_shift (tb : Board) (col : Int) (a : Nat) (s : Bool × Nat) :
    (holeScanStep tb col s a).1 = (holeScanStep tb col (s.1, 0) a).1 ∧
    (holeScanStep tb col s a).2 = s.2 + (holeScanStep tb col (s.1, 0) a).2 := by
  unfold holeScanStep
  by_cases ht : tb (a : Int) col
  · simp [ht]
  · by_cases hf : s.1 <;> simp [ht, hf]

lemma holeScan_foldl_shift (tb : Board) (col : Int) :
    ∀ (l : List Nat) (s : Bool × Nat),
      (l.foldl (holeScanStep tb col) s).1 = (l.foldl (holeScanStep tb col) (s.1, 0)).1 ∧
      (l.foldl (holeScanStep tb col) s).2 =
        s.2 + (l.foldl (holeScanStep tb col) (s.1, 0)).2 := by
  intro l
  induction l with
  | nil => intro s; exact ⟨rfl, rfl⟩
  | cons a l ih =>
    intro s
    obtain ⟨e1, e2⟩ := holeScanStep_shift tb col a s
    simp only [List.foldl_cons]
    obtain ⟨ia, ib⟩ := ih (holeScanStep tb col s a)
    obtain ⟨ia', ib'⟩ := ih (holeScanStep tb col (s.1, 0) a)
    constructor
    · rw [ia, ia', e1]
    · rw [ib, ib', e1, e2]
      omega

lemma holeScan_range (tb : Board) (col : Nat) :
    ∀ n : Nat, (List.range n).foldl (holeScanStep tb (col : Int)) (false, 0) =
      ((List.range n).any (fun q => tb (q : Int) (col : Int)),
        (List.range n).countP (isHole tb col)) := by
  intro n
  induction n with
  | zero => rfl
  | succ m ih =>
    rw [List.range_succ, List.foldl_append, ih, List.any_append, List.countP_append]
    simp only [List.foldl_cons, List.foldl_nil, List.any_cons, List.any_nil, Bool.or_false]
    unfold holeScanStep
    by_cases ht : tb (m : Int) (col : Int)
    · simp [ht, isHole]
    · by_cases hf : (List.range m).any (fun q => tb (q : Int) (col : Int))
      · simp [ht, hf, isHole]
      · simp [ht, hf, isHole]

lemma foldl_add_map (g : Nat → Nat) : ∀ (l : List Nat) (a : Nat),
    l.foldl (fun acc x => acc + g x) a = a + (l.map g).sum := by
  intro l
  induction l with
  | nil => intro a; simp
  | cons x l ih => intro a; simp [ih]; omega

/-- The imperative hole scan of `simulateCandidateScore` computes exactly the
declarative hole count of the spec. -/
lemma countHoles_eq_specHoles (tb : Board) : countHoles tb = specHoles tb := by
  unfold countHoles specHoles
  have hcol : ∀ (holes : Nat) (col : Nat),
      ((List.range 10).foldl (holeScanStep tb (col : Int)) (false, holes)).2 =
        holes + (List.range 10).countP (isHole tb col) := by
    intro holes col
    rw [(holeScan_foldl_shift tb (col : Int) (List.range 10) (false, holes)).2,
      holeScan_range tb col 10]
  have : ∀ (l : List Nat) (a : Nat),
      l.foldl (fun holes (col : Nat) =>
        ((List.range 10).foldl (holeScanStep tb (col : Int)) (false, holes)).2) a =
      a + (l.map fun col => (List.range 10).countP (isHole tb col)).sum := by
    intro l
    induction l with
    | nil => intro a; simp
    | cons x l ih =>
      intro a
      simp only [List.foldl_cons, List.map_cons, List.sum_cons]
      rw [hcol a x, ih]
      omega
  rw [this]
  omega

/-! ## Full-line count and the declarative line count -/

lemma fullRow_iff (tb : Board) (r : Int) :
    fullRow tb r = true ↔ ∀ c : Nat, c < 7 → tb r (c : Int) = true := by
  simp [fullRow, List.all_eq_true, List.mem_range]

lemma countLines_eq_specLines (tb : Board) : countLines tb = specLines tb := by
  unfold countLines specLines
  apply List.countP_congr
  intro r _
  rw [fullRow_iff]
  simp

/-! ## Column heights -/

lemma find?_range_none (p : Nat → Bool) :
    ∀ n : Nat, ((List.range n).find? p = none ↔ ∀ k, k < n → p k = false) := by
  intro n
  induction n with
  | zero => simp
  | succ m ih =>
    rw [List.range_succ, List.find?_append]
    constructor
    · intro h
      have h1 : (List.range m).find? p = none := by
        cases hf : (List.range m).find? p with
        | none => rfl
        | some v => rw [hf] at h; simp [Option.or] at h
      have h2 : [m].find? p = none := by
        cases hf : [m].find? p with
        | none => rfl
        | some v => rw [h1, hf] at h; simp [Option.or] at h
      have hm : p m = false := by
        by_cases hp : p m = true
        · simp [List.find?, hp] at h2
        · exact Bool.of_not_eq_true hp
      intro k hk
      rcases (by omega : k < m ∨ k = m) with h' | h'
      · exact (ih.mp h1) k h'
      · rwa [h']
    · intro h
      have h1 : (List.range m).find? p = none := ih.mpr fun k hk => h k (by omega)
      have h2 : [m].find? p = none := by simp [List.find?, h m (by omega)]
      rw [h1, h2]
      rfl

lemma find?_range_some (p : Nat → Bool) :
    ∀ n m : Nat, (List.range n).find? p = some m →
      m < n ∧ p m = true ∧ ∀ k, k < m → p k = false := by
  intro n
  induction n with
  | zero => intro m h; simp at h
  | succ j ih =>
    intro m h
    rw [List.range_succ, List.find?_append] at h
    cases hf : (List.range j).find? p with
    | some v =>
      rw [hf] at h
      simp [Option.or] at h
      obtain ⟨h1, h2, h3⟩ := ih v hf
      exact ⟨by omega, h ▸ h2, h ▸ h3⟩
    | none =>
      rw [hf] at h
      simp only [Option.none_or] at h
      have hall := (find?_range_none p j).mp hf
      by_cases hp : p j = true
      · simp [List.find?, hp] at h
        refine ⟨by omega, ?_, ?_⟩
        · rwa [← h]
        · intro k hk
          exact hall k (by omega)
      · simp [List.find?, Bool.of_not_eq_true hp] at h

/-- Declarative column height: 10 minus the least occupied row index
(the topmost occupied cell), 0 for an empty column. -/
def specColHeight (tb : Board) (col : Nat) : Nat :=
  if h : ∃ r : Nat, r < 10 ∧ tb (r : Int) (col : Int) = true then 10 - Nat.find h else 0

lemma colHeight_eq_specColHeight (tb : Board) (col : Nat) :
    colHeight tb (col : Int) = specColHeight tb col := by
  unfold colHeight specColHeight
  cases hf : (List.range 10).find? (fun (row : Nat) => tb (row : Int) (col : Int)) with
  | none =>
    have hall := (find?_range_none _ 10).mp hf
    rw [dif_neg]
    rintro ⟨r, hr, hocc⟩
    rw [hall r hr] at hocc
    exact Bool.false_ne_true hocc
  | some m =>
    obtain ⟨h1, h2, h3⟩ := find?_range_some _ 10 m hf
    have hex : ∃ r : Nat, r < 10 ∧ tb (r : Int) (col : Int) = true := ⟨m, h1, h2⟩
    rw [dif_pos hex]
    have : Nat.find hex = m := by
      rw [Nat.find_eq_iff]
      refine ⟨⟨h1, h2⟩, ?_⟩
      rintro k hk ⟨-, hocc⟩
      rw [h3 k hk] at hocc
      exact Bool.false_ne_true hocc
    rw [this]

lemma if_lt_eq_max (m h : Nat) : (if m < h then h else m) = max m h := by
  split <;> omega

lemma foldl_max_eq (g : Nat → Nat) :
    ∀ (l : List Nat) (a : Nat),
      l.foldl (fun m x => let h := g x; if m < h then h else m) a =
        max a ((l.map g).foldr max 0) := by
  intro l
  induction l with
  | nil => intro a; simp
  | cons x l ih =>
    intro a
    simp only [List.foldl_cons, List.map_cons, List.foldr_cons]
    rw [if_lt_eq_max, ih, max_assoc]

/-- Declarative maximum height: per-column heights measured from the bottom
edge to the topmost occupied cell, maximised over the 7 columns. -/
def specMaxHeight (tb : Board) : Nat :=
  ((List.range 7).map (specColHeight tb)).foldr max 0

lemma maxHeight_eq_specMaxHeight (tb : Board) : maxHeight tb = specMaxHeight tb := by
  unfold maxHeight specMaxHeight
  have h := foldl_max_eq (fun col : Nat => colHeight tb (col : Int)) (List.range 7) 0
  have hmap : (List.range 7).map (specColHeight tb) =
      (List.range 7).map (fun col : Nat => colHeight tb (col : Int)) := by
    apply List.map_congr_left
    intro col _
    exact (colHeight_eq_specColHeight tb col).symm
  rw [hmap]
  exact h.trans (Nat.zero_max _)

/-! ## The locking loop and the declarative locked snapshot -/

lemma simulateLock_apply (b : Board) (t : Fin 3) (rot : Fin 4) (x y r c : Int) :
    simulateLock b t rot x y r c =
      (b r c || (List.finRange 4).any fun i =>
        decide (0 ≤ y + (tetrominoes t rot i).2 ∧ y + (tetrominoes t rot i).2 < 10 ∧
          0 ≤ x + (tetrominoes t rot i).1 ∧ x + (tetrominoes t rot i).1 < 7) &&
        decide (r = y + (tetrominoes t rot i).2 ∧ c = x + (tetrominoes t rot i).1)) := by
  suffices h : ∀ (l : List (Fin 4)) (tb : Board),
      (l.foldl (fun tb i =>
        let blockX := x + (tetrominoes t rot i).1
        let blockY := y + (tetrominoes t rot i).2
        if 0 ≤ blockY ∧ blockY < 10 ∧ 0 ≤ blockX ∧ blockX < 7 then
          updateCell tb blockY blockX
        else tb) tb) r c =
      (tb r c || l.any fun i =>
        decide (0 ≤ y + (tetrominoes t rot i).2 ∧ y + (tetrominoes t rot i).2 < 10 ∧
          0 ≤ x + (tetrominoes t rot i).1 ∧ x + (tetrominoes t rot i).1 < 7) &&
        decide (r = y + (tetrominoes t rot i).2 ∧ c = x + (tetrominoes t rot i).1)) by
    exact h (List.finRange 4) b
  intro l
  induction l with
  | nil => intro tb; simp
  | cons i l ih =>
    intro tb
    simp only [List.foldl_cons, List.any_cons]
    rw [ih]
    have hstep : (let blockX := x + (tetrominoes t rot i).1
        let blockY := y + (tetrominoes t rot i).2
        if 0 ≤ blockY ∧ blockY < 10 ∧ 0 ≤ blockX ∧ blockX < 7 then
          updateCell tb blockY blockX
        else tb) r c =
        (tb r c ||
          (decide (0 ≤ y + (tetrominoes t rot i).2 ∧ y + (tetrominoes t rot i).2 < 10 ∧
            0 ≤ x + (tetrominoes t rot i).1 ∧ x + (tetrominoes t rot i).1 < 7) &&
          decide (r = y + (tetrominoes t rot i).2 ∧ c = x + (tetrominoes t rot i).1))) := by
      by_cases hb : 0 ≤ y + (tetrominoes t rot i).2 ∧ y + (tetrominoes t rot i).2 < 10 ∧
          0 ≤ x + (tetrominoes t rot i).1 ∧ x + (tetrominoes t rot i).1 < 7
      · simp only [if_pos hb, updateCell, decide_eq_true hb, Bool.true_and]
        by_cases hrc : r = y + (tetrominoes t rot i).2 ∧ c = x + (tetrominoes t rot i).1
        · simp [if_pos hrc, hrc]
        · simp [if_neg hrc, hrc]
      · simp [if_neg hb, hb]
    rw [hstep, Bool.or_assoc]

/-- Under the in-bounds hypothesis the guarded locking loop produces exactly
the spec's locked snapshot. -/
lemma simulateLock_eq_specLocked (b : Board) (t : Fin 3) (rot : Fin 4) (x y : Int)
    (hin : ∀ i : Fin 4, 0 ≤ x + (tetrominoes t rot i).1 ∧ x + (tetrominoes t rot i).1 < 7 ∧
      0 ≤ y + (tetrominoes t rot i).2 ∧ y + (tetrominoes t rot i).2 < 10) :
    simulateLock b t rot x y = specLocked b t rot x y := by
  funext r c
  rw [simulateLock_apply, specLocked]
  congr 1
  rw [Bool.eq_iff_iff]
  simp only [List.any_eq_true, List.mem_finRange, Bool.and_eq_true, decide_eq_true_eq]
  constructor
  · rintro ⟨i, -, -, h2⟩
    exact ⟨i, h2⟩
  · rintro ⟨i, h2⟩
    obtain ⟨a1, a2, a3, a4⟩ := hin i
    exact ⟨i, trivial, ⟨a3, a4, a1, a2⟩, h2⟩

def emptyBoard : Board := fun _ _ => false

def bottomRowBoard : Board := fun r c => decide (r = 9 ∧ 0 ≤ c ∧ c < 6)

def fullBoard : Board := fun _ _ => true

def pieceI0 : Piece := { type := 0, rotation := 0, x := 1, y := 0 }

/-- C1: for every board snapshot and candidate placement whose 4 blocks lie
on the board, the candidate score returned by `simulateCandidateScore`
equals landingDepth − 3·holes + 10·clearedLines − 1·maxHeight, with holes
the declarative empty-below-occupied count and clearedLines the number of
all-occupied rows, both measured on the snapshot with the candidate's 4
blocks locked in. -/
theorem simulateCandidateScore_closed_form (b : Board) (p : Piece) (testX landingY : Int)
    (testRot : Fin 4)
    (hin : ∀ i : Fin 4,
      0 ≤ testX + (tetrominoes p.type testRot i).1 ∧
      testX + (tetrominoes p.type testRot i).1 < 7 ∧
      0 ≤ landingY + (tetrominoes p.type testRot i).2 ∧
      landingY + (tetrominoes p.type testRot i).2 < 10) :
    simulateCandidateScore b p testX landingY testRot =
      landingY - 3 * (specHoles (specLocked b p.type testRot testX landingY) : Int)
        + 10 * (specLines (specLocked b p.type testRot testX landingY) : Int)
        - 1 * (maxHeight (specLocked b p.type testRot testX landingY) : Int) := by
  show landingY - HOLE_PENALTY * (countHoles (simulateLock b p.type testRot testX landingY) : Int)
      + LINE_CLEAR_BONUS * (countLines (simulateLock b p.type testRot testX landingY) : Int)
      - MAX_HEIGHT_PENALTY * (maxHeight (simulateLock b p.type testRot testX landingY) : Int) = _
  rw [simulateLock_eq_specLocked b p.type testRot testX landingY hin,
    countHoles_eq_specHoles, countLines_eq_specLines]
  unfold HOLE_PENALTY LINE_CLEAR_BONUS MAX_HEIGHT_PENALTY
  ring

/-- Witness for C1 at a concrete input: the bottom row holds 6 blocks and a
vertical I piece drops into column 6 at landing row 6. -/
theorem simulateCandidateScore_closed_form_witness :
    (∀ i : Fin 4,
      0 ≤ (6 : Int) + (tetrominoes (0 : Fin 3) (1 : Fin 4) i).1 ∧
      (6 : Int) + (tetrominoes (0 : Fin 3) (1 : Fin 4) i).1 < 7 ∧
      0 ≤ (6 : Int) + (tetrominoes (0 : Fin 3) (1 : Fin 4) i).2 ∧
      (6 : Int) + (tetrominoes (0 : Fin 3) (1 : Fin 4) i).2 < 10) ∧
    simulateCandidateScore bottomRowBoard pieceI0 6 6 1 =
      6 - 3 * (specHoles (specLocked bottomRowBoard 0 1 6 6) : Int)
        + 10 * (specLines (specLocked bottomRowBoard 0 1 6 6) : Int)
        - 1 * (maxHeight (specLocked bottomRowBoard 0 1 6 6) : Int) :=
  ⟨by decide, simulateCandidateScore_closed_form bottomRowBoard pieceI0 6 6 1 (by decide)⟩

/-! ## Bounds on the scoring quantities -/

lemma specHoles_le (tb : Board) : specHoles tb ≤ 70 := by
  unfold specHoles
  have hb : ∀ z ∈ (List.range 7).map fun col => (List.range 10).countP (isHole tb col),
      z ≤ 10 := by
    intro z hz
    obtain ⟨col, -, hc⟩ := List.mem_map.mp hz
    rw [← hc]
    calc (List.range 10).countP (isHole tb col) ≤ (List.range 10).length :=
          List.countP_le_length _
      _ = 10 := by simp
  calc ((List.range 7).map fun col => (List.range 10).countP (isHole tb col)).sum
      ≤ ((List.range 7).map fun col => (List.range 10).countP (isHole tb col)).length • 10 :=
        List.sum_le_card_nsmul _ 10 hb
    _ = 70 := by simp

lemma colHeight_le (tb : Board) (col : Int) : colHeight tb col ≤ 10 := by
  unfold colHeight
  split <;> omega

lemma foldr_max_le (c : Nat) : ∀ l : List Nat, (∀ x ∈ l, x ≤ c) → l.foldr max 0 ≤ c := by
  intro l
  induction l with
  | nil => intro _; simp
  | cons a l ih =>
    intro h
    simp only [List.foldr_cons]
    exact max_le (h a (by simp)) (ih fun x hx => h x (by simp [hx]))

lemma maxHeight_le (tb : Board) : maxHeight tb ≤ 10 := by
  unfold maxHeight
  rw [foldl_max_eq (fun col : Nat => colHeight tb (col : Int)) (List.range 7) 0, Nat.zero_max]
  apply foldr_max_le
  intro x hx
  obtain ⟨col, -, hc⟩ := List.mem_map.mp hx
  rw [← hc]
  exact colHeight_le tb (col : Int)

/-- Any enumerated candidate scores at least −220, so it always beats the
−10000 sentinel of `findBestPlacement`. -/
lemma candidateScoreAt_lb (b : Board) (p : Piece) (x : Int) (rot : Fin 4) :
    -10000 < candidateScoreAt b p x rot := by
  have hL : (0 : Int) ≤ simulateDrop b p x rot 10 0 := simulateDrop_ge b p x rot 10 0
  have h1 : countHoles (simulateLock b p.type rot x (simulateDrop b p x rot 10 0)) ≤ 70 := by
    rw [countHoles_eq_specHoles]; exact specHoles_le _
  have h2 : maxHeight (simulateLock b p.type rot x (simulateDrop b p x rot 10 0)) ≤ 10 :=
    maxHeight_le _
  show -10000 < simulateDrop b p x rot 10 0
    - HOLE_PENALTY * (countHoles (simulateLock b p.type rot x (simulateDrop b p x rot 10 0)) : Int)
    + LINE_CLEAR_BONUS *
        (countLines (simulateLock b p.type rot x (simulateDrop b p x rot 10 0)) : Int)
    - MAX_HEIGHT_PENALTY *
        (maxHeight (simulateLock b p.type rot x (simulateDrop b p x rot 10 0)) : Int)
  unfold HOLE_PENALTY LINE_CLEAR_BONUS MAX_HEIGHT_PENALTY
  omega

/-! ## A generic strict-improvement fold -/

section PickFold

variable {α : Type} (f : α → Int)

/-- One step of `findBestPlacement`'s running-best update: replace the state
only on a strictly greater score. -/
def pickStep (s : Int × α) (c : α) : Int × α :=
  if s.1 < f c then (f c, c) else s

lemma pickStep_ge1 (s : Int × α) (c : α) : s.1 ≤ (pickStep f s c).1 := by
  unfold pickStep; split <;> omega

lemma pickStep_ge2 (s : Int × α) (c : α) : f c ≤ (pickStep f s c).1 := by
  unfold pickStep; split <;> omega

lemma pickFold_ge (L : List α) : ∀ s0 : Int × α,
    s0.1 ≤ (L.foldl (pickStep f) s0).1 ∧ ∀ c ∈ L, f c ≤ (L.foldl (pickStep f) s0).1 := by
  induction L with
  | nil => intro s0; exact ⟨le_refl _, by simp⟩
  | cons a L ih =>
    intro s0
    simp only [List.foldl_cons]
    obtain ⟨ih1, ih2⟩ := ih (pickStep f s0 a)
    refine ⟨le_trans (pickStep_ge1 f s0 a) ih1, ?_⟩
    intro c hc
    rcases List.mem_cons.mp hc with h | h
    · rw [h]; exact le_trans (pickStep_ge2 f s0 a) ih1
    · exact ih2 c h

lemma pickFold_cases (L : List α) : ∀ s0 : Int × α,
    (L.foldl (pickStep f) s0 = s0 ∧ ∀ c ∈ L, f c ≤ s0.1) ∨
    ∃ L1 c L2, L = L1 ++ c :: L2 ∧ L.foldl (pickStep f) s0 = (f c, c) ∧ s0.1 < f c ∧
      (∀ c' ∈ L1, f c' < f c) ∧ (∀ c' ∈ L2, f c' ≤ f c) := by
  induction L with
  | nil => intro s0; exact Or.inl ⟨rfl, by simp⟩
  | cons a L ih =>
    intro s0
    simp only [List.foldl_cons]
    rcases ih (pickStep f s0 a) with ⟨hEq, hAll⟩ | ⟨L1, c, L2, hsplit, hr, hgt, hL1, hL2⟩
    · by_cases ha : s0.1 < f a
      · have hs : pickStep f s0 a = (f a, a) := by unfold pickStep; rw [if_pos ha]
        refine Or.inr ⟨[], a, L, by simp, hEq.trans hs, ha, by simp, ?_⟩
        intro c' hc'
        have h' := hAll c' hc'
        rw [hs] at h'
        exact h'
      · have hs : pickStep f s0 a = s0 := by unfold pickStep; rw [if_neg ha]
        refine Or.inl ⟨hEq.trans hs, ?_⟩
        intro c hc
        rcases List.mem_cons.mp hc with h | h
        · rw [h]; omega
        · have h' := hAll c h
          rw [hs] at h'
          exact h'
    · by_cases ha : s0.1 < f a
      · have hs : pickStep f s0 a = (f a, a) := by unfold pickStep; rw [if_pos ha]
        have hgt' : f a < f c := by rw [hs] at hgt; exact hgt
        refine Or.inr ⟨a :: L1, c, L2, by rw [hsplit]; rfl, hr, by omega, ?_, hL2⟩
        intro c' hc'
        rcases List.mem_cons.mp hc' with h | h
        · rw [h]; exact hgt'
        · exact hL1 c' h
      · have hs : pickStep f s0 a = s0 := by unfold pickStep; rw [if_neg ha]
        have hgt' : s0.1 < f c := by rw [hs] at hgt; exact hgt
        refine Or.inr ⟨a :: L1, c, L2, by rw [hsplit]; rfl, hr, hgt', ?_, hL2⟩
        intro c' hc'
        rcases List.mem_cons.mp hc' with h | h
        · rw [h]; omega
        · exact hL1 c' h

end PickFold

/-! ## The candidate enumeration of `findBestPlacement` as a flat list -/

/-- The candidates `findBestPlacement` actually evaluates, in evaluation
order: rotations ascending, then columns ascending, keeping only those legal
at row 0. -/
def candList (b : Board) (p : Piece) : List (Int × Fin 4) :=
  (List.finRange 4).flatMap fun rot =>
    ((List.range (maxXN p.type rot)).filter fun (x : Nat) => canPlace b p (x : Int) 0 rot).map
      fun (x : Nat) => ((x : Int), rot)

/-- The score function evaluated on a candidate pair. -/
def candScore (b : Board) (p : Piece) : Int × Fin 4 → Int :=
  fun c => candidateScoreAt b p c.1 c.2

lemma foldl_flatMap {α β γ : Type} (g : α → List β) (h : γ → β → γ) :
    ∀ (l : List α) (init : γ),
      (l.flatMap g).foldl h init = l.foldl (fun s a => (g a).foldl h s) init := by
  intro l
  induction l with
  | nil => intro init; rfl
  | cons a l ih =>
    intro init
    rw [List.flatMap_cons, List.foldl_append, List.foldl_cons, ih]

lemma foldl_filter_map {α β γ : Type} (q : α → Bool) (m : α → β) (h : γ → β → γ) :
    ∀ (l : List α) (s : γ),
      ((l.filter q).map m).foldl h s = l.foldl (fun s x => if q x then h s (m x) else s) s := by
  intro l
  induction l with
  | nil => intro s; rfl
  | cons a l ih =>
    intro s
    by_cases hq : q a = true
    · rw [List.filter_cons_of_pos hq, List.map_cons, List.foldl_cons, List.foldl_cons, ih,
        if_pos hq]
    · rw [List.filter_cons_of_neg hq, List.foldl_cons, ih, if_neg hq]

lemma bestFold_eq (b : Board) (p : Piece) :
    (List.finRange 4).foldl (fun s rot =>
      (List.range (maxXN p.type rot)).foldl (fun s (x : Nat) =>
        if canPlace b p (x : Int) 0 rot then
          let landingY := simulateDrop b p (x : Int) rot 10 0
          let score := simulateCandidateScore b p (x : Int) landingY rot
          if s.1 < score then (score, ((x : Int), rot)) else s
        else s) s) ((-10000 : Int), (p.x, p.rotation))
    = (candList b p).foldl (pickStep (candScore b p)) (-10000, (p.x, p.rotation)) := by
  unfold candList
  rw [foldl_flatMap]
  simp only [foldl_filter_map]
  rfl

/-- The function `findBestPlacement` is the strict-improvement fold over the flattened
candidate list. -/
lemma findBestPlacement_eq_fold (b : Board) (p : Piece) :
    findBestPlacement b p =
      (((candList b p).foldl (pickStep (candScore b p)) (-10000, (p.x, p.rotation))).2.1,
        ((((candList b p).foldl (pickStep (candScore b p))
          (-10000, (p.x, p.rotation))).2.2 : Nat) : Int)) := by
  simp only [findBestPlacement]
  rw [bestFold_eq]

lemma mem_candList_intro (b : Board) (p : Piece) (x : Nat) (rot : Fin 4)
    (hx : x < maxXN p.type rot) (hcp : canPlace b p (x : Int) 0 rot = true) :
    ((x : Int), rot) ∈ candList b p := by
  unfold candList
  rw [List.mem_flatMap]
  exact ⟨rot, List.mem_finRange rot,
    List.mem_map.mpr ⟨x, List.mem_filter.mpr ⟨List.mem_range.mpr hx, hcp⟩, rfl⟩⟩

lemma mem_candList_elim (b : Board) (p : Piece) (c : Int × Fin 4) (hc : c ∈ candList b p) :
    ∃ x : Nat, c.1 = (x : Int) ∧ x < maxXN p.type c.2 ∧ canPlace b p c.1 0 c.2 = true := by
  unfold candList at hc
  rw [List.mem_flatMap] at hc
  obtain ⟨rot, -, hc⟩ := hc
  obtain ⟨x, hmem, heq⟩ := List.mem_map.mp hc
  obtain ⟨hr, hcp⟩ := List.mem_filter.mp hmem
  refine ⟨x, by rw [← heq], ?_, ?_⟩
  · rw [← heq]
    exact List.mem_range.mp hr
  · rw [← heq]
    exact hcp

/-- The evaluation order of the enumeration: rotation ascending, then
column ascending within a rotation. -/
def lexLt (a c : Int × Fin 4) : Prop := a.2 < c.2 ∨ (a.2 = c.2 ∧ a.1 < c.1)

lemma pairwise_flatMap_of {α β : Type} (R : β → β → Prop) (S : α → α → Prop) (g : α → List β)
    (hcross : ∀ a a', S a a' → ∀ x ∈ g a, ∀ y ∈ g a', R x y) :
    ∀ l : List α, l.Pairwise S → (∀ a ∈ l, (g a).Pairwise R) → (l.flatMap g).Pairwise R := by
  intro l
  induction l with
  | nil => intro _ _; simp
  | cons a l ih =>
    intro hl hinner
    rw [List.flatMap_cons, List.pairwise_append]
    obtain ⟨hS, hl'⟩ := List.pairwise_cons.mp hl
    refine ⟨hinner a (by simp), ih hl' (fun a' ha' => hinner a' (by simp [ha'])), ?_⟩
    intro x hx y hy
    rw [List.mem_flatMap] at hy
    obtain ⟨a', ha', hy⟩ := hy
    exact hcross a a' (hS a' ha') x hx y hy

lemma candList_sorted (b : Board) (p : Piece) : (candList b p).Pairwise lexLt := by
  unfold candList
  apply pairwise_flatMap_of lexLt (fun a c : Fin 4 => a < c)
  · intro rot rot' hS x hx y hy
    obtain ⟨x1, -, hx1⟩ := List.mem_map.mp hx
    obtain ⟨y1, -, hy1⟩ := List.mem_map.mp hy
    left
    rw [← hx1, ← hy1]
    exact hS
  · decide
  · intro rot _
    apply List.Pairwise.map (fun x : Nat => ((x : Int), rot))
      (S := lexLt) (R := fun a c : Nat => a < c)
    · intro a c hac
      right
      refine ⟨rfl, ?_⟩
      show ((a : Nat) : Int) < ((c : Nat) : Int)
      exact_mod_cast hac
    · exact (List.pairwise_lt_range _).filter _

/-- C2: with at least one legal candidate, `findBestPlacement` returns a
legal enumerated candidate whose score is greatest among all placements
legal at the spawn row, ties resolved toward the earlier (rotation, column)
in the rotation-ascending, column-ascending evaluation order.  (Determinism
is inherent: the embedding is a pure function of board, piece and
weights.) -/
theorem findBestPlacement_spec (b : Board) (p : Piece)
    (h : ∃ (rot : Fin 4) (x : Nat), x < maxXN p.type rot ∧ canPlace b p (x : Int) 0 rot = true) :
    ∃ (rot : Fin 4) (x : Nat),
      findBestPlacement b p = ((x : Int), ((rot : Nat) : Int)) ∧
      x < maxXN p.type rot ∧
      canPlace b p (x : Int) 0 rot = true ∧
      ∀ (rot' : Fin 4) (x' : Int), canPlace b p x' 0 rot' = true →
        candidateScoreAt b p x' rot' ≤ candidateScoreAt b p (x : Int) rot ∧
        (candidateScoreAt b p x' rot' = candidateScoreAt b p (x : Int) rot →
          (rot < rot' ∨ (rot = rot' ∧ (x : Int) ≤ x'))) := by
  obtain ⟨rot0, x0, hx0, hcp0⟩ := h
  have hmem0 : ((x0 : Int), rot0) ∈ candList b p := mem_candList_intro b p x0 rot0 hx0 hcp0
  rcases pickFold_cases (candScore b p) (candList b p) (-10000, (p.x, p.rotation)) with
    ⟨-, hAll⟩ | ⟨L1, c, L2, hsplit, hr, -, hL1, hL2⟩
  · exfalso
    have h1 := hAll _ hmem0
    have h2 := candidateScoreAt_lb b p (x0 : Int) rot0
    have h3 : candScore b p ((x0 : Int), rot0) = candidateScoreAt b p (x0 : Int) rot0 := rfl
    rw [h3] at h1
    simp only at h1
    omega
  · have hcmem : c ∈ candList b p := by
      rw [hsplit]
      exact List.mem_append.mpr (Or.inr (List.mem_cons_self c L2))
    obtain ⟨cx, hc1, hcxlt, hccp⟩ := mem_candList_elim b p c hcmem
    have hfc : candScore b p c = candidateScoreAt b p (cx : Int) c.2 := by
      unfold candScore
      rw [hc1]
    have hsorted := candList_sorted b p
    rw [hsplit] at hsorted
    have hcl2 : ∀ y ∈ L2, lexLt c y :=
      (List.pairwise_cons.mp (List.pairwise_append.mp hsorted).2.1).1
    refine ⟨c.2, cx, ?_, hcxlt, by rw [← hc1]; exact hccp, ?_⟩
    · rw [findBestPlacement_eq_fold, hr, hc1]
    · intro rot' x' hcp'
      obtain ⟨hx'0, hx'lt⟩ := canPlace_x_bounds hcp'
      have hn : ((x'.toNat : Nat) : Int) = x' := Int.toNat_of_nonneg hx'0
      have hnlt : x'.toNat < maxXN p.type rot' := by
        have := maxXN_cast p.type rot'
        omega
      have hmem' : (((x'.toNat : Nat) : Int), rot') ∈ candList b p :=
        mem_candList_intro b p x'.toNat rot' hnlt (by rw [hn]; exact hcp')
      have hfc' : candScore b p (((x'.toNat : Nat) : Int), rot') =
          candidateScoreAt b p x' rot' := by
        show candidateScoreAt b p ((x'.toNat : Nat) : Int) rot' = candidateScoreAt b p x' rot'
        rw [hn]
      rw [hsplit] at hmem'
      rcases List.mem_append.mp hmem' with hin1 | hin2
      · have hlt := hL1 _ hin1
        rw [hfc, hfc'] at hlt
        exact ⟨le_of_lt hlt, fun heq => absurd heq (by omega)⟩
      · rcases List.mem_cons.mp hin2 with heqc | hin2
        · have h1 : x' = c.1 := by rw [← hn]; exact congrArg Prod.fst heqc
          have h2 : rot' = c.2 := congrArg Prod.snd heqc
          constructor
          · rw [h1, h2, hc1]
          · intro _
            right
            refine ⟨h2.symm, ?_⟩
            rw [h1, hc1]
        · have hle := hL2 _ hin2
          rw [hfc, hfc'] at hle
          refine ⟨hle, ?_⟩
          intro heq
          rcases hcl2 _ hin2 with hlex | ⟨hlex1, hlex2⟩
          · left
            exact hlex
          · right
            refine ⟨hlex1, ?_⟩
            rw [hc1] at hlex2
            simp only at hlex2
            omega

/-- Witness for C2 on the empty board with an I piece: at least one legal
candidate exists and the returned pair is the first-found score maximum. -/
theorem findBestPlacement_spec_witness :
    (∃ (rot : Fin 4) (x : Nat), x < maxXN pieceI0.type rot ∧
      canPlace emptyBoard pieceI0 (x : Int) 0 rot = true) ∧
    (∃ (rot : Fin 4) (x : Nat),
      findBestPlacement emptyBoard pieceI0 = ((x : Int), ((rot : Nat) : Int)) ∧
      x < maxXN pieceI0.type rot ∧
      canPlace emptyBoard pieceI0 (x : Int) 0 rot = true ∧
      ∀ (rot' : Fin 4) (x' : Int), canPlace emptyBoard pieceI0 x' 0 rot' = true →
        candidateScoreAt emptyBoard pieceI0 x' rot' ≤
          candidateScoreAt emptyBoard pieceI0 (x : Int) rot ∧
        (candidateScoreAt emptyBoard pieceI0 x' rot' =
            candidateScoreAt emptyBoard pieceI0 (x : Int) rot →
          (rot < rot' ∨ (rot = rot' ∧ (x : Int) ≤ x')))) :=
  ⟨⟨0, 0, by decide, by decide⟩,
    findBestPlacement_spec emptyBoard pieceI0 ⟨0, 0, by decide, by decide⟩⟩

/-! ## C3: the max-height component -/

/-- The claim's literal reading of the per-column quantity: the distance from
the TOP board edge to the topmost occupied cell (0 if the column is empty). -/
def topDistColHeight (tb : Board) (col : Nat) : Nat :=
  match (List.range 10).find? (fun (row : Nat) => tb (row : Int) (col : Int)) with
  | some row => row
  | none => 0

/-- The claim's literal max-height: the top-edge distance maximised over the
7 columns. -/
def topDistMaxHeight (tb : Board) : Nat :=
  ((List.range 7).map (topDistColHeight tb)).foldr max 0

/-- C3 counterexample: lock an O piece at the bottom-left of the empty board.
The code's max-height component is 2 (measured from the bottom edge), while
the claim's top-edge distance is 8, so the claim as stated is false. -/
theorem maxHeight_top_edge_counterexample :
    maxHeight (simulateLock emptyBoard 1 0 0 8) = 2 ∧
    topDistMaxHeight (simulateLock emptyBoard 1 0 0 8) = 8 ∧
    maxHeight (simulateLock emptyBoard 1 0 0 8) ≠
      topDistMaxHeight (simulateLock emptyBoard 1 0 0 8) := by
  refine ⟨by decide, by decide, by decide⟩

/-- C3 amended: the max-height component equals, per column, boardHeight −
(topmost occupied row index) — i.e. the distance from the BOTTOM edge up to
and including the topmost occupied cell, 0 for an empty column — maximised
across all columns. -/
theorem maxHeight_component_spec (tb : Board) : maxHeight tb = specMaxHeight tb :=
  maxHeight_eq_specMaxHeight tb

/-! ## C4: the no-legal-placement condition -/

/-- C4 counterexample: on a full board no placement of the current piece is
legal at the spawn row, yet `findBestPlacement` returns the piece's current
(x, rotation) as if it were an answer, with no failure signal. -/
theorem findBestPlacement_silent_default_counterexample :
    (∀ (rot : Fin 4) (x : Int), canPlace fullBoard pieceI0 x 0 rot = false) ∧
    findBestPlacement fullBoard pieceI0 = (pieceI0.x, ((pieceI0.rotation : Nat) : Int)) := by
  constructor
  · intro rot x
    by_cases h : canPlace fullBoard pieceI0 x 0 rot = true
    · exfalso
      have h0 := (canPlace_eq_true_iff fullBoard pieceI0 x 0 rot).mp h 0
      exact absurd h0.2.2.2.2 (by simp [fullBoard])
    · exact Bool.of_not_eq_true h
  · decide

lemma candList_eq_nil (b : Board) (p : Piece)
    (h : ∀ (rot : Fin 4) (x : Nat), x < maxXN p.type rot →
      canPlace b p (x : Int) 0 rot = false) :
    candList b p = [] := by
  unfold candList
  rw [List.flatMap_eq_nil_iff]
  intro rot _
  rw [List.map_eq_nil_iff, List.filter_eq_nil_iff]
  intro x hx
  rw [h rot x (List.mem_range.mp hx)]
  simp

/-- C4 amended: the board-full condition is surfaced only at spawn time —
`spawnPiece` raises the gameOver flag exactly when the fresh piece cannot be
placed — while `findBestPlacement`, when no enumerated candidate is legal at
row 0, silently returns the piece's current (x, rotation) unchanged. -/
theorem noLegalPlacement_surfaced (b : Board) (p : Piece) (t : Fin 3)
    (h : ∀ (rot : Fin 4) (x : Nat), x < maxXN p.type rot →
      canPlace b p (x : Int) 0 rot = false) :
    ((spawnPiece b t).2 = true ↔ canPlace b (spawnPiece b t).1 (spawnX t) 0 0 = false) ∧
    findBestPlacement b p = (p.x, ((p.rotation : Nat) : Int)) := by
  constructor
  · simp [spawnPiece]
  · rw [findBestPlacement_eq_fold, candList_eq_nil b p h]
    rfl

/-- C4 witness: the amended statement discharged on the full board. -/
theorem noLegalPlacement_surfaced_witness :
    (∀ (rot : Fin 4) (x : Nat), x < maxXN pieceI0.type rot →
      canPlace fullBoard pieceI0 (x : Int) 0 rot = false) ∧
    (((spawnPiece fullBoard 0).2 = true ↔
        canPlace fullBoard (spawnPiece fullBoard 0).1 (spawnX 0) 0 0 = false) ∧
      findBestPlacement fullBoard pieceI0 =
        (pieceI0.x, ((pieceI0.rotation : Nat) : Int))) :=
  ⟨by decide, noLegalPlacement_surfaced fullBoard pieceI0 0 (by decide)⟩

/-! ## C5: the legality check -/

/-- C5: `canPlace` returns true exactly when all 4 block coordinates are
inside the 7×10 board and on empty cells; it is a pure predicate of the
board (no side effects by construction of the embedding). -/
theorem canPlace_spec (b : Board) (p : Piece) (nx ny : Int) (rot : Fin 4) :
    canPlace b p nx ny rot = true ↔ ∀ i : Fin 4,
      0 ≤ nx + (tetrominoes p.type rot i).1 ∧ nx + (tetrominoes p.type rot i).1 < 7 ∧
      0 ≤ ny + (tetrominoes p.type rot i).2 ∧ ny + (tetrominoes p.type rot i).2 < 10 ∧
      b (ny + (tetrominoes p.type rot i).2) (nx + (tetrominoes p.type rot i).1) = false :=
  canPlace_eq_true_iff b p nx ny rot

/-! ## C6: the drop simulation -/

/-- C6: for a placement legal at the top row, the drop loop (with fuel 10 =
board height) lands on a row that is legal, with every row from 0 down to it
legal, the next row below illegal, maximal among rows reachable through a
legal chain from the top, and extra fuel beyond 10 never changes the
result (the loop stops within 10 steps). -/
theorem simulateDrop_correct (b : Board) (p : Piece) (x : Int) (rot : Fin 4)
    (h : canPlace b p x 0 rot = true) :
    0 ≤ simulateDrop b p x rot 10 0 ∧
    simulateDrop b p x rot 10 0 < 10 ∧
    canPlace b p x (simulateDrop b p x rot 10 0) rot = true ∧
    (∀ y : Int, 0 ≤ y → y ≤ simulateDrop b p x rot 10 0 → canPlace b p x y rot = true) ∧
    canPlace b p x (simulateDrop b p x rot 10 0 + 1) rot = false ∧
    (∀ y : Int, (∀ z : Int, 0 ≤ z → z ≤ y → canPlace b p x z rot = true) →
      y ≤ simulateDrop b p x rot 10 0) ∧
    (∀ k : Nat, simulateDrop b p x rot (10 + k) 0 = simulateDrop b p x rot 10 0) := by
  have hge : (0 : Int) ≤ simulateDrop b p x rot 10 0 := simulateDrop_ge b p x rot 10 0
  have hcp : canPlace b p x (simulateDrop b p x rot 10 0) rot = true :=
    simulateDrop_canPlace b p x rot 10 0 h
  have hlt : simulateDrop b p x rot 10 0 < 10 := (canPlace_y_bounds hcp).2
  have hstop : canPlace b p x (simulateDrop b p x rot 10 0 + 1) rot = false :=
    simulateDrop_stop b p x rot 10 0 h (by omega)
  refine ⟨hge, hlt, hcp, ?_, hstop, ?_, simulateDrop_fuel_ge b p x rot h⟩
  · intro y h1 h2
    exact simulateDrop_chain b p x rot 10 0 h y h1 h2
  · intro y hy
    by_contra hc
    push_neg at hc
    have h1 : canPlace b p x (simulateDrop b p x rot 10 0 + 1) rot = true :=
      hy (simulateDrop b p x rot 10 0 + 1) (by omega) (by omega)
    rw [h1] at hstop
    exact absurd hstop (by simp)

/-- Witness for C6: a horizontal I piece on the empty board is legal at the
top and the drop loop behaves as specified (it lands on row 9). -/
theorem simulateDrop_correct_witness :
    canPlace emptyBoard pieceI0 0 0 0 = true ∧
    (0 ≤ simulateDrop emptyBoard pieceI0 0 0 10 0 ∧
      simulateDrop emptyBoard pieceI0 0 0 10 0 < 10 ∧
      canPlace emptyBoard pieceI0 0 (simulateDrop emptyBoard pieceI0 0 0 10 0) 0 = true ∧
      (∀ y : Int, 0 ≤ y → y ≤ simulateDrop emptyBoard pieceI0 0 0 10 0 →
        canPlace emptyBoard pieceI0 0 y 0 = true) ∧
      canPlace emptyBoard pieceI0 0 (simulateDrop emptyBoard pieceI0 0 0 10 0 + 1) 0 = false ∧
      (∀ y : Int, (∀ z : Int, 0 ≤ z → z ≤ y → canPlace emptyBoard pieceI0 0 z 0 = true) →
        y ≤ simulateDrop emptyBoard pieceI0 0 0 10 0) ∧
      (∀ k : Nat, simulateDrop emptyBoard pieceI0 0 0 (10 + k) 0 =
        simulateDrop emptyBoard pieceI0 0 0 10 0)) :=
  ⟨by decide, simulateDrop_correct emptyBoard pieceI0 0 0 (by decide)⟩

/-! ## C7: the search never touches the live board -/

/-- C7: running the best-placement search (and candidate scoring) against
the game state leaves every cell of the live board exactly as it was; the
simulation works only on the local copy built by `simulateLock`. -/
theorem search_preserves_board (s : GameState) :
    (∀ r c : Int, ((findBestPlacementS s).2).board r c = s.board r c) ∧
    (∀ (testX landingY : Int) (testRot : Fin 4) (r c : Int),
      ((simulateCandidateScoreS s testX landingY testRot).2).board r c = s.board r c) :=
  ⟨fun _ _ => rfl, fun _ _ _ _ _ => rfl⟩

/-! ## C8: the enumeration never leaves the horizontal bounds -/

/-- C8: every enumerated starting column is at most boardWidth − 1 − k where
k is the rotation's maximum rightward block offset, and consequently every
block of every enumerated candidate lies within the horizontal bounds. -/
theorem candidate_columns_in_bounds (t : Fin 3) (rot : Fin 4) (x : Nat)
    (hx : x < maxXN t rot) :
    (x : Int) ≤ 7 - 1 - maxOffset t rot ∧
    ∀ i : Fin 4, 0 ≤ (x : Int) + (tetrominoes t rot i).1 ∧
      (x : Int) + (tetrominoes t rot i).1 < 7 := by
  have hc := maxXN_cast t rot
  have hxi : (x : Int) < 7 - maxOffset t rot := by omega
  refine ⟨by omega, ?_⟩
  intro i
  have h1 := (tet_off_nonneg t rot i).1
  have h2 := tet_off_le_maxOffset t rot i
  omega

/-- Witness for C8 at the I piece, rotation 0, column 0. -/
theorem candidate_columns_in_bounds_witness :
    (0 : Nat) < maxXN 0 0 ∧
    (((0 : Nat) : Int) ≤ 7 - 1 - maxOffset 0 0 ∧
      ∀ i : Fin 4, 0 ≤ ((0 : Nat) : Int) + (tetrominoes 0 0 i).1 ∧
        ((0 : Nat) : Int) + (tetrominoes 0 0 i).1 < 7) :=
  ⟨by decide, candidate_columns_in_bounds 0 0 0 (by decide)⟩

/-! ## C9: one discrete action per tick -/

/-- C9: in the deterministic branch, if the rotation differs from the target
a single clockwise rotation step is tried in place, then kicked one column
left, then one column right, and if all three are illegal the piece is left
unchanged this tick; if the rotation matches, the piece moves exactly one
column toward the target column when that step is legal and otherwise does
nothing. -/
theorem moveTowardTarget_spec (b : Board) (p : Piece) (bestX bestRot : Int) :
    (((p.rotation : Nat) : Int) ≠ bestRot →
      ((canPlace b p p.x p.y (p.rotation + 1) = true →
          moveTowardTarget b p bestX bestRot = { p with rotation := p.rotation + 1 }) ∧
        (canPlace b p p.x p.y (p.rotation + 1) = false →
          canPlace b p (p.x - 1) p.y (p.rotation + 1) = true →
          moveTowardTarget b p bestX bestRot =
            { p with x := p.x - 1, rotation := p.rotation + 1 }) ∧
        (canPlace b p p.x p.y (p.rotation + 1) = false →
          canPlace b p (p.x - 1) p.y (p.rotation + 1) = false →
          canPlace b p (p.x + 1) p.y (p.rotation + 1) = true →
          moveTowardTarget b p bestX bestRot =
            { p with x := p.x + 1, rotation := p.rotation + 1 }) ∧
        (canPlace b p p.x p.y (p.rotation + 1) = false →
          canPlace b p (p.x - 1) p.y (p.rotation + 1) = false →
          canPlace b p (p.x + 1) p.y (p.rotation + 1) = false →
          moveTowardTarget b p bestX bestRot = p))) ∧
    (((p.rotation : Nat) : Int) = bestRot →
      ((p.x < bestX → canPlace b p (p.x + 1) p.y p.rotation = true →
          moveTowardTarget b p bestX bestRot = { p with x := p.x + 1 }) ∧
        (p.x < bestX → canPlace b p (p.x + 1) p.y p.rotation = false →
          moveTowardTarget b p bestX bestRot = p) ∧
        (bestX < p.x → canPlace b p (p.x - 1) p.y p.rotation = true →
          moveTowardTarget b p bestX bestRot = { p with x := p.x - 1 }) ∧
        (bestX < p.x → canPlace b p (p.x - 1) p.y p.rotation = false →
          moveTowardTarget b p bestX bestRot = p) ∧
        (p.x = bestX → moveTowardTarget b p bestX bestRot = p))) := by
  constructor
  · intro hne
    refine ⟨?_, ?_, ?_, ?_⟩
    · intro h1
      simp [moveTowardTarget, hne, h1]
    · intro h1 h2
      simp [moveTowardTarget, hne, h1, h2]
    · intro h1 h2 h3
      simp [moveTowardTarget, hne, h1, h2, h3]
    · intro h1 h2 h3
      simp [moveTowardTarget, hne, h1, h2, h3]
  · intro heq
    refine ⟨?_, ?_, ?_, ?_, ?_⟩
    · intro h1 h2
      simp [moveTowardTarget, heq, h1, h2]
    · intro h1 h2
      simp [moveTowardTarget, heq, h1, h2]
    · intro h1 h2
      have hnl : ¬ p.x < bestX := by omega
      simp [moveTowardTarget, heq, hnl, h1, h2]
    · intro h1 h2
      have hnl : ¬ p.x < bestX := by omega
      simp [moveTowardTarget, heq, hnl, h1, h2]
    · intro h1
      have hnl : ¬ p.x < bestX := by omega
      have hnr : ¬ bestX < p.x := by omega
      simp [moveTowardTarget, heq, hnl, hnr]

/-- Witness for C9: on the empty board with target rotation 1 the I piece
rotates once in place. -/
theorem moveTowardTarget_spec_witness :
    ((pieceI0.rotation : Nat) : Int) ≠ 1 ∧
    canPlace emptyBoard pieceI0 pieceI0.x pieceI0.y (pieceI0.rotation + 1) = true ∧
    moveTowardTarget emptyBoard pieceI0 3 1 =
      { pieceI0 with rotation := pieceI0.rotation + 1 } :=
  ⟨by decide, by decide,
    ((moveTowardTarget_spec emptyBoard pieceI0 3 1).1 (by decide)).1 (by decide)⟩

/-! ## C10: clearLines -/

/-- Closed form of the shifting loop: rows 1..r take the contents of the row
above, all other rows are untouched. -/
lemma shiftRowsDown_apply : ∀ (r : Nat) (tb : Board) (rr cc : Int),
    shiftRowsDown tb r rr cc =
      if 1 ≤ rr ∧ rr ≤ (r : Int) then tb (rr - 1) cc else tb rr cc := by
  intro r
  induction r with
  | zero =>
    intro tb rr cc
    rw [if_neg (by omega : ¬(1 ≤ rr ∧ rr ≤ ((0 : Nat) : Int)))]
    rfl
  | succ r ih =>
    intro tb rr cc
    have hlist : (List.range (r + 1)).map (fun k => (r + 1) - k) =
        (r + 1) :: (List.range r).map (fun k => r - k) := by
      rw [List.range_succ_eq_map, List.map_cons, List.map_map]
      congr 1
      apply List.map_congr_left
      intro k _
      simp only [Function.comp_apply]
      omega
    have hih := ih (fun rr2 cc2 =>
      if rr2 = ((r + 1 : Nat) : Int) then tb (((r + 1 : Nat) : Int) - 1) cc2
      else tb rr2 cc2) rr cc
    have hgoal : shiftRowsDown tb (r + 1) rr cc =
        ((List.range r).map (fun k => r - k)).foldl (fun tb2 row =>
          fun rr cc => if rr = ((row : Nat) : Int) then tb2 (((row : Nat) : Int) - 1) cc
            else tb2 rr cc)
          (fun rr2 cc2 =>
            if rr2 = ((r + 1 : Nat) : Int) then tb (((r + 1 : Nat) : Int) - 1) cc2
            else tb rr2 cc2) rr cc := by
      unfold shiftRowsDown
      rw [hlist]
      rfl
    rw [hgoal]
    refine Eq.trans hih ?_
    by_cases hA : 1 ≤ rr ∧ rr ≤ (r : Int)
    · rw [if_pos hA, if_pos (⟨hA.1, by push_cast; omega⟩ : 1 ≤ rr ∧ rr ≤ ((r + 1 : Nat) : Int))]
      show (if rr - 1 = ((r + 1 : Nat) : Int) then tb (((r + 1 : Nat) : Int) - 1) cc
          else tb (rr - 1) cc) = tb (rr - 1) cc
      rw [if_neg (by push_cast; omega)]
    · have hA' : rr < 1 ∨ (r : Int) < rr := by
        rcases not_and_or.mp hA with h | h
        · left; omega
        · right; omega
      by_cases hB : rr = ((r + 1 : Nat) : Int)
      · have hpos : 1 ≤ rr ∧ rr ≤ ((r + 1 : Nat) : Int) := by omega
        rw [if_neg hA, if_pos hpos]
        show (if rr = ((r + 1 : Nat) : Int) then tb (((r + 1 : Nat) : Int) - 1) cc
            else tb rr cc) = tb (rr - 1) cc
        rw [if_pos hB, hB]
      · have hneg : ¬(1 ≤ rr ∧ rr ≤ ((r + 1 : Nat) : Int)) := by
          intro hk
          rcases hA' with h | h
          · omega
          · exact hB (by omega)
        rw [if_neg hA, if_neg hneg]
        show (if rr = ((r + 1 : Nat) : Int) then tb (((r + 1 : Nat) : Int) - 1) cc
            else tb rr cc) = tb rr cc
        rw [if_neg hB]

/-- The main pass of `clearLines` stopped after the first `n` rows. -/
def clearFold (b : Board) (n : Nat) : Board :=
  (List.range n).foldl (fun tb (r : Nat) =>
    if fullRow tb (r : Int) then clearRowZero (shiftRowsDown tb r) else tb) b

lemma clearFold_succ (b : Board) (n : Nat) :
    clearFold b (n + 1) =
      if fullRow (clearFold b n) (n : Int) then clearRowZero (shiftRowsDown (clearFold b n) n)
      else clearFold b n := by
  unfold clearFold
  rw [List.range_succ, List.foldl_append]
  rfl

lemma clearFold_ten (b : Board) : clearLines b = clearFold b 10 := rfl

/-- How many of the first `n` rows of the original board are full and lie
strictly below row `j` — the downward shift row `j` receives. -/
def shiftCount (b : Board) (n j : Nat) : Nat :=
  (List.range n).countP fun i => decide (j < i) && fullRow b (i : Int)

/-- How many of the first `n` rows of the original board are full. -/
def fullCount (b : Board) (n : Nat) : Nat :=
  (List.range n).countP fun (i : Nat) => fullRow b (i : Int)

lemma shiftCount_succ (b : Board) (n j : Nat) :
    shiftCount b (n + 1) j =
      shiftCount b n j + (if (decide (j < n) && fullRow b (n : Int)) = true then 1 else 0) := by
  unfold shiftCount
  rw [List.range_succ, List.countP_append]
  simp [List.countP_cons]

lemma fullCount_succ (b : Board) (n : Nat) :
    fullCount b (n + 1) = fullCount b n + (if fullRow b (n : Int) = true then 1 else 0) := by
  unfold fullCount
  rw [List.range_succ, List.countP_append]
  simp [List.countP_cons]

lemma shiftCount_last (b : Board) (n : Nat) : shiftCount b (n + 1) n = 0 := by
  unfold shiftCount
  rw [List.countP_eq_zero]
  intro i hi
  have : i < n + 1 := List.mem_range.mp hi
  simp [show ¬n < i by omega]

lemma shiftCount_le (b : Board) (j : Nat) : ∀ n : Nat, j < n → shiftCount b n j ≤ n - 1 - j := by
  intro n
  induction n with
  | zero => intro h; omega
  | succ m ih =>
    intro hj
    rw [shiftCount_succ]
    by_cases hc : j < m
    · have := ih hc
      have hone : (if (decide (j < m) && fullRow b (m : Int)) = true then 1 else 0) ≤ 1 := by
        split <;> omega
      omega
    · have hjm : j = m := by omega
      have h0 : shiftCount b m j = 0 := by
        unfold shiftCount
        rw [List.countP_eq_zero]
        intro i hi
        have : i < m := List.mem_range.mp hi
        simp [show ¬j < i by omega]
      rw [h0]
      simp [show ¬j < m by omega]

lemma fullCount_le (b : Board) (n : Nat) : fullCount b n ≤ n := by
  calc fullCount b n ≤ (List.range n).length := List.countP_le_length _
    _ = n := by simp

lemma fullRow_congr (tb1 tb2 : Board) (r1 r2 : Int) (h : ∀ cc : Int, tb1 r1 cc = tb2 r2 cc) :
    fullRow tb1 r1 = fullRow tb2 r2 := by
  unfold fullRow
  congr 1
  funext c
  exact h (c : Int)

lemma fullRow_false_of_cell (tb : Board) (r : Int) (c : Nat) (hc : c < 7)
    (h : tb r (c : Int) = false) : fullRow tb r = false := by
  by_cases hf : fullRow tb r = true
  · rw [(fullRow_iff tb r).mp hf c hc] at h
    exact absurd h (by simp)
  · exact Bool.of_not_eq_true hf

/-- Invariant of the single top-to-bottom pass of `clearLines` after `n`
processed rows: rows from `n` down are untouched, no processed row is full,
each originally non-full processed row sits `shiftCount` rows lower with its
contents intact, and the top `fullCount` rows are empty. -/
lemma clearFold_invariant (b : Board) : ∀ n : Nat,
    (∀ rr : Int, ((n : Int) ≤ rr ∨ rr < 0) → ∀ cc : Int, clearFold b n rr cc = b rr cc) ∧
    (∀ j : Nat, j < n → fullRow (clearFold b n) (j : Int) = false) ∧
    (∀ j : Nat, j < n → fullRow b (j : Int) = false →
      ∀ cc : Int, clearFold b n ((j + shiftCount b n j : Nat) : Int) cc = b (j : Int) cc) ∧
    (∀ j : Nat, j < fullCount b n → ∀ cc : Int, clearFold b n (j : Int) cc = false) := by
  intro n
  induction n with
  | zero =>
    exact ⟨fun rr _ cc => rfl, fun j hj => absurd hj (by omega),
      fun j hj => absurd hj (by omega), fun j hj => absurd hj (by simp [fullCount])⟩
  | succ n ih =>
    obtain ⟨ia, id2, ib, ic⟩ := ih
    have hrow : fullRow (clearFold b n) (n : Int) = fullRow b (n : Int) :=
      fullRow_congr _ _ _ _ (fun cc => ia (n : Int) (Or.inl (le_refl _)) cc)
    by_cases hf : fullRow b (n : Int) = true
    · have hstep : clearFold b (n + 1) = clearRowZero (shiftRowsDown (clearFold b n) n) := by
        rw [clearFold_succ, hrow, hf]
        simp
      have happ : ∀ (rr cc : Int), clearFold b (n + 1) rr cc =
          if rr = 0 then false
          else if 1 ≤ rr ∧ rr ≤ (n : Int) then clearFold b n (rr - 1) cc
          else clearFold b n rr cc := by
        intro rr cc
        rw [hstep]
        show (if rr = 0 then false else shiftRowsDown (clearFold b n) n rr cc) = _
        by_cases h0 : rr = 0
        · rw [if_pos h0, if_pos h0]
        · rw [if_neg h0, if_neg h0, shiftRowsDown_apply]
      refine ⟨?_, ?_, ?_, ?_⟩
      · intro rr hrr cc
        rcases hrr with h | h
        · rw [happ, if_neg (by omega), if_neg (by omega)]
          exact ia rr (Or.inl (by omega)) cc
        · rw [happ, if_neg (by omega), if_neg (by omega)]
          exact ia rr (Or.inr h) cc
      · intro j hj
        by_cases hj0 : j = 0
        · subst hj0
          apply fullRow_false_of_cell _ _ 0 (by omega)
          rw [happ, if_pos (by simp : ((0 : Nat) : Int) = 0)]
        · have hcongr : fullRow (clearFold b (n + 1)) ((j : Nat) : Int) =
              fullRow (clearFold b n) (((j : Nat) : Int) - 1) := by
            apply fullRow_congr
            intro cc
            rw [happ, if_neg (by omega), if_pos (by omega)]
          rw [hcongr]
          have hcast : ((j : Nat) : Int) - 1 = ((j - 1 : Nat) : Int) := by omega
          rw [hcast]
          exact id2 (j - 1) (by omega)
      · intro j hj hjf cc
        have hjn : j ≠ n := by
          intro he
          rw [he] at hjf
          rw [hjf] at hf
          exact absurd hf (by simp)
        have hjlt : j < n := by omega
        have hsc : shiftCount b (n + 1) j = shiftCount b n j + 1 := by
          rw [shiftCount_succ]
          simp [hjlt, hf]
        rw [hsc]
        have hscle : shiftCount b n j ≤ n - 1 - j := shiftCount_le b j n hjlt
        rw [happ, if_neg (by omega), if_pos (by constructor <;> [omega; (push_cast; omega)])]
        have hcast : ((j + (shiftCount b n j + 1) : Nat) : Int) - 1 =
            ((j + shiftCount b n j : Nat) : Int) := by push_cast; omega
        rw [hcast]
        exact ib j hjlt hjf cc
      · intro j hj cc
        have hfc : fullCount b (n + 1) = fullCount b n + 1 := by
          rw [fullCount_succ]
          simp [hf]
        rw [hfc] at hj
        by_cases hj0 : j = 0
        · subst hj0
          rw [happ, if_pos (by simp : ((0 : Nat) : Int) = 0)]
        · have h3 : fullCount b n ≤ n := fullCount_le b n
          rw [happ, if_neg (by omega), if_pos (by constructor <;> omega)]
          have hcast : ((j : Nat) : Int) - 1 = ((j - 1 : Nat) : Int) := by omega
          rw [hcast]
          exact ic (j - 1) (by omega) cc
    · have hfval : fullRow b (n : Int) = false := Bool.of_not_eq_true hf
      have hstep : clearFold b (n + 1) = clearFold b n := by
        rw [clearFold_succ, hrow, hfval]
        simp
      refine ⟨?_, ?_, ?_, ?_⟩
      · intro rr hrr cc
        rw [hstep]
        rcases hrr with h | h
        · exact ia rr (Or.inl (by omega)) cc
        · exact ia rr (Or.inr h) cc
      · intro j hj
        rw [hstep]
        by_cases hjn : j = n
        · rw [hjn, hrow]
          exact hfval
        · exact id2 j (by omega)
      · intro j hj hjf cc
        rw [hstep]
        by_cases hjn : j = n
        · have h0 : shiftCount b (n + 1) j = 0 := by
            rw [hjn]
            exact shiftCount_last b n
          rw [h0]
          exact ia ((j : Nat) : Int) (Or.inl (by omega)) cc
        · have hjlt : j < n := by omega
          have hsc : shiftCount b (n + 1) j = shiftCount b n j := by
            rw [shiftCount_succ]
            simp [hfval]
          rw [hsc]
          exact ib j hjlt hjf cc
      · intro j hj cc
        have hfc : fullCount b (n + 1) = fullCount b n := by
          rw [fullCount_succ]
          simp [hfval]
        rw [hfc] at hj
        rw [hstep]
        exact ic j hj cc

def fullBottomBoard : Board := fun r c => decide (r = 9 ∧ 0 ≤ c ∧ c < 7)

/-- C10: after `clearLines` no row of the board is full — the single
top-to-bottom pass clears every full row, consecutive ones included — and
non-full rows keep their cell contents, merely shifted down by the number of
full rows below... i.e. each originally non-full row `j` reappears at row
`j + shiftCount b 10 j` unchanged, while the top `fullCount b 10` rows are
emptied. -/
theorem clearLines_spec (b : Board) :
    (∀ r : Nat, r < 10 → fullRow (clearLines b) (r : Int) = false) ∧
    (∀ j : Nat, j < 10 → fullRow b (j : Int) = false →
      ∀ cc : Int, clearLines b ((j + shiftCount b 10 j : Nat) : Int) cc = b (j : Int) cc) ∧
    (∀ j : Nat, j < fullCount b 10 → ∀ cc : Int, clearLines b (j : Int) cc = false) := by
  have h := clearFold_invariant b 10
  rw [clearFold_ten b]
  exact ⟨h.2.1, h.2.2.1, h.2.2.2⟩

/-- Witness for C10 on a board whose bottom row is full: row 5 is not full
afterwards, row 8's contents move down to row 9, and row 0 is emptied. -/
theorem clearLines_spec_witness :
    ((5 : Nat) < 10 ∧ fullRow (clearLines fullBottomBoard) ((5 : Nat) : Int) = false) ∧
    ((8 : Nat) < 10 ∧ fullRow fullBottomBoard ((8 : Nat) : Int) = false ∧
      clearLines fullBottomBoard
          ((8 + shiftCount fullBottomBoard 10 8 : Nat) : Int) 3 =
        fullBottomBoard ((8 : Nat) : Int) 3) ∧
    ((0 : Nat) < fullCount fullBottomBoard 10 ∧
      clearLines fullBottomBoard ((0 : Nat) : Int) 3 = false) :=
  ⟨⟨by decide, (clearLines_spec fullBottomBoard).1 5 (by decide)⟩,
    ⟨by decide, by decide,
      (clearLines_spec fullBottomBoard).2.1 8 (by decide) (by decide) 3⟩,
    ⟨by decide, (clearLines_spec fullBottomBoard).2.2 0 (by decide) 3⟩⟩
